import Mathlib

/-!
Verification of the invoice-analyst extraction-and-validation pipeline.

The repository ships a Next.js frontend (under apps/web, embedded below from
the TypeScript source) and documents a Python backend (the fuzzy validator,
article normalizer, PDF annotator and orchestrator) whose source is not part
of this tree; those backend components are modelled from the specification
text, as marked on each definition.  Text is embedded as List Char so that
splitting and trimming are plain structural recursion.
-/

namespace InvoiceAnalyst

/-- The newline character. -/
def newlineChar : Char := Char.ofNat 10

/-- Split a character list at every occurrence of the character c.  The result
is never empty; occurrences of c are consumed. -/
def splitOnChar (c : Char) : List Char → List (List Char)
  | [] => [[]]
  | x :: xs =>
    if x = c then [] :: splitOnChar c xs
    else
      match splitOnChar c xs with
      | [] => [[x]]
      | r :: rs => (x :: r) :: rs

/-- Modelled from the spec: the Fuzzy Validator tokenizes the PDF line text on
whitespace (empty runs dropped), as Python str.split does on the space
character. -/
def lineTokens (line : List Char) : List (List Char) :=
  (splitOnChar ' ' line).filter (fun t => t ≠ [])

/-- Numeric value of a decimal digit character, none for other characters. -/
def digitVal (c : Char) : Option Nat :=
  if '0' ≤ c ∧ c ≤ '9' then some (c.toNat - 48) else none

/-- Longest prefix of decimal digits (as digit values) and the rest. -/
def takeDigits : List Char → List Nat × List Char
  | [] => ([], [])
  | c :: cs =>
    match digitVal c with
    | none => ([], c :: cs)
    | some d =>
      let p := takeDigits cs
      (d :: p.1, p.2)

/-- Value of a big-endian digit list. -/
def ofDigitsBE (ds : List Nat) : Nat :=
  ds.foldl (fun a d => 10 * a + d) 0

/-- Modelled from the spec: parse an unsigned decimal number (digits with an
optional fractional part), as Python float accepts for plain decimals.  The
result is the scaled integer value paired with its power-of-ten denominator,
so that the rational value can be assembled reducibly. -/
def parseMantissa (cs : List Char) : Option (Nat × Nat) :=
  let p := takeDigits cs
  match p.2 with
  | [] => if p.1.isEmpty then none else some (ofDigitsBE p.1, 1)
  | '.' :: rest2 =>
    let f := takeDigits rest2
    if f.2.isEmpty && !(p.1.isEmpty && f.1.isEmpty) then
      some (ofDigitsBE p.1 * 10 ^ f.1.length + ofDigitsBE f.1, 10 ^ f.1.length)
    else none
  | _ => none

/-- Modelled from the spec: signed decimal parsing (optional leading minus). -/
def parseDec (cs : List Char) : Option ℚ :=
  if cs.head? = some '-' then
    (parseMantissa (cs.drop 1)).map (fun p => mkRat (-(p.1 : Int)) p.2)
  else (parseMantissa cs).map (fun p => mkRat (p.1 : Int) p.2)

/-- Modelled from the spec: decimal-separator normalization turns a comma into
a dot before numeric comparison (token 12,50 is read as 12.50). -/
def commaFix (cs : List Char) : List Char :=
  cs.map (fun c => if c = ',' then '.' else c)

/-- Length of a longest common subsequence of two character lists; the matched
size underlying the similarity score of the fuzzy matcher. -/
def lcsLen : List Char → List Char → Nat
  | [], _ => 0
  | _, [] => 0
  | a :: as, b :: bs =>
    if a = b then 1 + lcsLen as bs
    else max (lcsLen (a :: as) bs) (lcsLen as (b :: bs))
termination_by a b => a.length + b.length

/-- Modelled from the spec: normalized 0..1 similarity score of the fuzzy
matcher (twice the matched size over the total length, 1 for two empties). -/
def simScore (a b : List Char) : ℚ :=
  if a.length + b.length = 0 then 1
  else mkRat (2 * lcsLen a b : Int) (a.length + b.length)

/-- The fixed fuzzy-match acceptance threshold of 0.85. -/
def fuzzyThreshold : ℚ := mkRat 17 20

/-- A text field matches a token when the similarity score reaches 0.85. -/
def matchStrTok (s tok : List Char) : Bool :=
  decide (fuzzyThreshold ≤ simScore s tok)

/-- A numeric field matches a token when the token, after decimal-separator
normalization, parses to exactly the field value. -/
def numTokenMatch (q : ℚ) (tok : List Char) : Bool :=
  decide (parseDec (commaFix tok) = some q)

/-- A populated article field value: a text value, a numeric value, or null. -/
inductive FieldVal where
  | vnull : FieldVal
  | vstr (s : List Char) : FieldVal
  | vnum (q : ℚ) : FieldVal
deriving DecidableEq

/-- Matching strategy (a) of the spec: approximate string similarity, which
applies to text fields only. -/
def fuzzyStrategy : FieldVal → List Char → Bool
  | .vstr s, tok => matchStrTok s tok
  | _, _ => false

/-- Matching strategy (b) of the spec: exact numeric equality after
decimal-separator normalization, which applies to numeric fields only. -/
def numericStrategy : FieldVal → List Char → Bool
  | .vnum q, tok => numTokenMatch q tok
  | _, _ => false

/-- A field value is found in the token list when one of the two strategies
succeeds on some token; null fields are skipped (treated as found). -/
def valueFound (toks : List (List Char)) : FieldVal → Bool
  | .vnull => true
  | .vstr s => toks.any (fun t => matchStrTok s t)
  | .vnum q => toks.any (fun t => numTokenMatch q t)

/-- Modelled from the spec: the backend fuzzy validator (pdf_annotator.py,
_find_missing_values, absent from this tree) returns the key-value pairs of
the article whose value is found by neither strategy in the PDF line text. -/
def find_missing_values (line : List Char) (fields : List (String × FieldVal)) :
    List (String × FieldVal) :=
  fields.filter (fun kv => !(valueFound (lineTokens line) kv.2))

/-- Per-article validation outcome. -/
inductive Verdict where
  | correct : Verdict
  | error : Verdict
deriving DecidableEq

/-- Modelled from the spec: add_validation_status attaches the verdict and the
missing-field names (none when the verdict is correct). -/
def addValidationStatus (line : List Char) (fields : List (String × FieldVal)) :
    Verdict × Option (List String) :=
  let missing := find_missing_values line fields
  if missing.isEmpty then (Verdict.correct, none)
  else (Verdict.error, some (missing.map Prod.fst))

/-- The green highlight color of the PDF annotator, as an RGB triple. -/
def greenRGB : ℚ × ℚ × ℚ := (0, 1 / 2, 0)

/-- The red highlight color of the PDF annotator, as an RGB triple. -/
def redRGB : ℚ × ℚ × ℚ := (1, 0, 0)

/-- Modelled from the spec: the annotator highlights a matched line green when
every field was found and red otherwise, from the same missing-value
computation as the response metadata. -/
def articleHighlightColor (line : List Char) (fields : List (String × FieldVal)) :
    ℚ × ℚ × ℚ :=
  if (find_missing_values line fields).isEmpty then greenRGB else redRGB

/-- A normalized article record: the ten canonical fields of the article
schema (text fields as character lists, numeric fields as rationals), every
field optional. -/
structure ArticleRecord where
  reference : Option (List Char) := none
  designation : Option (List Char) := none
  prixUnitaire : Option ℚ := none
  packaging : Option ℚ := none
  quantite : Option ℚ := none
  unite : Option (List Char) := none
  poidsVolume : Option ℚ := none
  total : Option ℚ := none
  marque : Option (List Char) := none
  categorie : Option (List Char) := none
deriving DecidableEq

/-- A raw cell of the structuring payload: a JSON string, number, or null. -/
inductive Cell where
  | cnull : Cell
  | cstr (s : List Char) : Cell
  | cnum (q : ℚ) : Cell
deriving DecidableEq

/-- Modelled from the spec: type coercion of a raw cell into a text field
(blank coerces to null). -/
def coerceText : Cell → Option (List Char)
  | .cstr [] => none
  | .cstr s => some s
  | _ => none

/-- Modelled from the spec: type coercion of a raw cell into a numeric field
(numeric strings become numbers, anything non-numeric coerces to null). -/
def coerceNum : Cell → Option ℚ
  | .cnum q => some q
  | .cstr s => parseDec s
  | .cnull => none

/-- Value bound to an aliased field name in a mapping-shaped article, null
when the key is absent. -/
def lookupField (m : List (String × Cell)) (k : String) : Cell :=
  match m.find? (fun kv => kv.1 == k) with
  | some kv => kv.2
  | none => .cnull

/-- Modelled from the spec: the mapping decoder of the Article Normalizer
resolves the localized field aliases and type-coerces each cell. -/
def decodeMapping (m : List (String × Cell)) : ArticleRecord where
  reference := coerceText (lookupField m "Reference")
  designation := coerceText (lookupField m "Désignation")
  prixUnitaire := coerceNum (lookupField m "Prix Unitaire")
  packaging := coerceNum (lookupField m "Packaging")
  quantite := coerceNum (lookupField m "Quantité")
  unite := coerceText (lookupField m "Unité")
  poidsVolume := coerceNum (lookupField m "Poids/Volume")
  total := coerceNum (lookupField m "Total")
  marque := coerceText (lookupField m "Marque")
  categorie := coerceText (lookupField m "Catégorie")

/-- Cell of a positional tuple at column i, null when the tuple is short. -/
def cellAt (t : List Cell) (i : Nat) : Cell :=
  t.getD i Cell.cnull

/-- Modelled from the spec: the tuple decoder of the Article Normalizer maps
positional values onto the fixed canonical column order (Reference,
Désignation, Prix Unitaire, Packaging, Quantité, Unité, Poids/Volume, Total,
Marque, Catégorie). -/
def decodeTuple (t : List Cell) : ArticleRecord where
  reference := coerceText (cellAt t 0)
  designation := coerceText (cellAt t 1)
  prixUnitaire := coerceNum (cellAt t 2)
  packaging := coerceNum (cellAt t 3)
  quantite := coerceNum (cellAt t 4)
  unite := coerceText (cellAt t 5)
  poidsVolume := coerceNum (cellAt t 6)
  total := coerceNum (cellAt t 7)
  marque := coerceText (cellAt t 8)
  categorie := coerceText (cellAt t 9)

/-- Drop leading and trailing spaces of a markdown table cell. -/
def trimChars (cs : List Char) : List Char :=
  ((cs.dropWhile (fun c => c == ' ')).reverse.dropWhile (fun c => c == ' ')).reverse

/-- Cells of one markdown table row: split on the pipe character, drop the
segments before the first and after the last pipe, trim each cell. -/
def rowCells (row : List Char) : List (List Char) :=
  ((splitOnChar '|' row).drop 1).dropLast.map trimChars

/-- A markdown separator row: every cell nonempty and made only of dashes and
colons. -/
def isSepRow (cells : List (List Char)) : Bool :=
  !cells.isEmpty &&
    cells.all (fun c => !c.isEmpty && c.all (fun ch => ch == '-' || ch == ':'))

/-- Modelled from the spec: the markdown-table decoder splits the string into
rows on line delimiters, discards the header row and the separator rows, and
decodes the remaining rows as tuples of string cells. -/
def decodeMarkdown (s : List Char) : List ArticleRecord :=
  match (splitOnChar newlineChar s).map rowCells with
  | [] => []
  | _ :: rest =>
    (rest.filter (fun cells => !isSepRow cells)).map
      (fun cells => decodeTuple (cells.map Cell.cstr))

/-- The raw articles payload in any of its three shapes. -/
inductive RawArticles where
  | mappings (rows : List (List (String × Cell))) : RawArticles
  | tuples (rows : List (List Cell)) : RawArticles
  | markdown (s : List Char) : RawArticles

/-- Modelled from the spec: shape dispatch of the Article Normalizer. -/
def decodeRows : RawArticles → List ArticleRecord
  | .mappings rows => rows.map decodeMapping
  | .tuples rows => rows.map decodeTuple
  | .markdown s => decodeMarkdown s

/-- The all-empty placeholder record. -/
def emptyRecord : ArticleRecord := {}

/-- Modelled from the spec: the Article Normalizer drops the records whose
every field is empty and yields a single empty placeholder record when
nothing remains, so the output is never an empty sequence. -/
def normalizeArticles (p : RawArticles) : List ArticleRecord :=
  if ((decodeRows p).filter (fun r => decide (r ≠ emptyRecord))).isEmpty then
    [emptyRecord]
  else (decodeRows p).filter (fun r => decide (r ≠ emptyRecord))

/-- Field value of an optional text field, null when absent. -/
def textVal : Option (List Char) → FieldVal
  | none => FieldVal.vnull
  | some s => FieldVal.vstr s

/-- Field value of an optional numeric field, null when absent. -/
def numVal : Option ℚ → FieldVal
  | none => FieldVal.vnull
  | some q => FieldVal.vnum q

/-- The aliased field dictionary of a record, as handed to the validator. -/
def fieldsOfRecord (r : ArticleRecord) : List (String × FieldVal) :=
  [("Reference", textVal r.reference),
   ("Désignation", textVal r.designation),
   ("Prix Unitaire", numVal r.prixUnitaire),
   ("Packaging", numVal r.packaging),
   ("Quantité", numVal r.quantite),
   ("Unité", textVal r.unite),
   ("Poids/Volume", numVal r.poidsVolume),
   ("Total", numVal r.total),
   ("Marque", textVal r.marque),
   ("Catégorie", textVal r.categorie)]

/-- The green verdict color as a 6-hex-digit string. -/
def greenHex : List Char := "008000".toList

/-- The red verdict color as a 6-hex-digit string. -/
def redHex : List Char := "ff0000".toList

/-- Modelled from the spec: the annotator scans the document lines for the
candidate whose similarity with the reference text of the article is maximal
and clears the 0.85 threshold, earliest line winning ties. -/
def bestLine (doc : List (List Char)) (r : ArticleRecord) : Option (List Char) :=
  (doc.foldl
    (fun acc line =>
      let s := simScore (r.reference.getD []) line
      match acc with
      | none => if fuzzyThreshold ≤ s then some (line, s) else none
      | some best =>
        if fuzzyThreshold ≤ s ∧ best.2 < s then some (line, s) else some best)
    none).map Prod.fst

/-- Modelled from the spec: highlight color of one article — green when every
field is found in its matched line, red when fields are missing or no line
clears the threshold. -/
def articleColorHex (doc : List (List Char)) (r : ArticleRecord) : List Char :=
  match bestLine doc r with
  | none => redHex
  | some line =>
    if (find_missing_values line (fieldsOfRecord r)).isEmpty then greenHex
    else redHex

/-- The color payload of the extraction response (lib/env.ts, ColorMapping):
a field-name-to-color mapping and one hex color per article. -/
structure ColorMapping where
  metadata_colors : List (String × List Char)
  article_colors : List (List Char)
deriving DecidableEq

/-- Modelled from the spec: fixed per-field metadata highlight colors, stable
across requests for the same field name. -/
def metadataColorTable : List (String × List Char) :=
  [("supplier_name", "ffd6a5".toList),
   ("invoice_number", "caffbf".toList),
   ("invoice_date", "9bf6ff".toList),
   ("total_without_taxes", "a0c4ff".toList),
   ("taxes_amount", "bdb2ff".toList),
   ("total_amount", "ffc6ff".toList)]

/-- Modelled from the spec: the annotator emits one highlight color per
article, in article order. -/
def buildColorMapping (doc : List (List Char)) (articles : List ArticleRecord) :
    ColorMapping where
  metadata_colors := metadataColorTable
  article_colors := articles.map (articleColorHex doc)

/-- One editable table row of the frontend (types/invoice.ts, ArticleRow):
the ten article fields plus the userEdited flag and the highlight color. -/
structure ArticleRow where
  reference : Option (List Char) := none
  designation : Option (List Char) := none
  prixUnitaire : Option ℚ := none
  packaging : Option ℚ := none
  quantite : Option ℚ := none
  unite : Option (List Char) := none
  poidsVolume : Option ℚ := none
  total : Option ℚ := none
  marque : Option (List Char) := none
  categorie : Option (List Char) := none
  userEdited : Bool := false
  highlightColor : Option (List Char) := none
deriving DecidableEq

/-- The frontend row carrying the fields of a backend record. -/
def rowOfRecord (r : ArticleRecord) : ArticleRow where
  reference := r.reference
  designation := r.designation
  prixUnitaire := r.prixUnitaire
  packaging := r.packaging
  quantite := r.quantite
  unite := r.unite
  poidsVolume := r.poidsVolume
  total := r.total
  marque := r.marque
  categorie := r.categorie

/-- ExtractionWorkspace.tsx: each article receives the color of its own index
from colorMapping.article_colors (undefined past the end). -/
def attachHighlightColors (articles : List ArticleRow) (colors : List (List Char)) :
    List ArticleRow :=
  articles.enum.map (fun p => { p.2 with highlightColor := colors.get? p.1 })

/-- Outcome of the structuring model call. -/
inductive StructuringOutcome where
  | structured (p : RawArticles) : StructuringOutcome
  | unsupported : StructuringOutcome
  | failed : StructuringOutcome

/-- The fatal error kinds of the extraction pipeline. -/
inductive ExtractError where
  | ocrUnavailable : ExtractError
  | structuringFailed : ExtractError
  | unsupportedInvoiceType : ExtractError
deriving DecidableEq

/-- Modelled from the spec: the Extraction Orchestrator sequences text
recovery, structuring, normalization and annotation, surfacing an invoice
type the model classifies as unsupported as the distinct
unsupportedInvoiceType error. -/
def orchestrate (ocr : Option (List Char))
    (structureOf : List Char → StructuringOutcome) (doc : List (List Char)) :
    Except ExtractError (List ArticleRecord × ColorMapping) :=
  match ocr with
  | none => Except.error ExtractError.ocrUnavailable
  | some text =>
    match structureOf text with
    | .failed => Except.error ExtractError.structuringFailed
    | .unsupported => Except.error ExtractError.unsupportedInvoiceType
    | .structured p =>
      let articles := normalizeArticles p
      Except.ok (articles, buildColorMapping doc articles)

/-- The apostrophe character, kept out of string literals. -/
def apos : Char := Char.ofNat 39

/-- Modelled from the spec: human-readable message of each fatal error kind;
the unsupported kind carries the distinct message the frontend tests for. -/
def backendErrorMessage : ExtractError → List Char
  | .ocrUnavailable => "OCR service unavailable".toList
  | .structuringFailed => "Extraction failed".toList
  | .unsupportedInvoiceType => "Invoice type not supported".toList

/-- The specific toast text of ExtractionWorkspace.tsx for the unsupported
invoice type. -/
def frontendUnsupportedToast : List Char :=
  "Type de facture non supporté, contactez l".toList ++
    apos :: "administrateur".toList

/-- ExtractionWorkspace.tsx, onExtract error branch: the specific unsupported
message is shown when the error message mentions the unsupported invoice
type, the raw message otherwise. -/
def frontendToastFor (msg : List Char) : List Char :=
  if List.IsInfix "Invoice type not supported".toList msg then
    frontendUnsupportedToast
  else msg

/-- The extraction response consumed by the frontend (lib/env.ts). -/
structure ExtractionResponse where
  articles : List ArticleRow
  colorMapping : ColorMapping
deriving DecidableEq

/-- An HTTP response of the extraction request, as seen by runExtraction: the
ok flag, the body text read on failure, the parsed JSON body on success. -/
structure FetchResponse where
  ok : Bool
  bodyText : String
  jsonBody : ExtractionResponse

/-- The fallback message of runExtraction for an empty error body. -/
def extractionErrorFallback : String :=
  "Une erreur est survenue lors de l" ++ String.singleton apos ++ "extraction"

/-- lib/api/extraction.ts, runExtraction: a non-ok response throws the body
text (or the fallback message when the body is empty); an ok response returns
the parsed JSON body. -/
def runExtraction (resp : FetchResponse) : Except String ExtractionResponse :=
  if resp.ok then Except.ok resp.jsonBody
  else
    Except.error
      (if resp.bodyText = "" then extractionErrorFallback else resp.bodyText)

/-- A column key of the editable articles table. -/
inductive ColKey where
  | reference : ColKey
  | designation : ColKey
  | prixUnitaire : ColKey
  | packaging : ColKey
  | quantite : ColKey
  | unite : ColKey
  | poidsVolume : ColKey
  | total : ColKey
  | marque : ColKey
  | categorie : ColKey
deriving DecidableEq

/-- EditableArticlesTable.tsx, numericKeys: the five numeric columns. -/
def numericColKeys : List ColKey :=
  [ColKey.prixUnitaire, ColKey.packaging, ColKey.quantite,
   ColKey.poidsVolume, ColKey.total]

/-- The number conversion applied by the table to a numeric cell input,
modelling Number for plain decimal strings; none stands for NaN. -/
def jsNumber (value : List Char) : Option ℚ :=
  parseDec (trimChars value)

/-- EditableArticlesTable.tsx: the value stored in a numeric column — null
for the empty string, the parsed number otherwise, null again (never NaN)
when parsing fails. -/
def parsedNumericValue (value : List Char) : Option ℚ :=
  if value = [] then none else jsNumber value

/-- EditableArticlesTable.tsx, updateArticle body: one row updated at one
column, with userEdited raised; numeric columns go through number parsing,
text columns store the raw string. -/
def applyEdit (row : ArticleRow) (key : ColKey) (value : List Char) : ArticleRow :=
  match key with
  | .prixUnitaire => { row with prixUnitaire := parsedNumericValue value, userEdited := true }
  | .packaging => { row with packaging := parsedNumericValue value, userEdited := true }
  | .quantite => { row with quantite := parsedNumericValue value, userEdited := true }
  | .poidsVolume => { row with poidsVolume := parsedNumericValue value, userEdited := true }
  | .total => { row with total := parsedNumericValue value, userEdited := true }
  | .reference => { row with reference := some value, userEdited := true }
  | .designation => { row with designation := some value, userEdited := true }
  | .unite => { row with unite := some value, userEdited := true }
  | .marque => { row with marque := some value, userEdited := true }
  | .categorie => { row with categorie := some value, userEdited := true }

/-- EditableArticlesTable.tsx, updateArticle: copy the list and replace the
edited row. -/
def updateArticle (articles : List ArticleRow) (i : Nat) (key : ColKey)
    (value : List Char) : List ArticleRow :=
  match articles.get? i with
  | none => articles
  | some row => articles.set i (applyEdit row key value)

/-- The value of one column of a row, tagged by the column kind. -/
inductive ColVal where
  | num (q : Option ℚ) : ColVal
  | text (s : Option (List Char)) : ColVal
deriving DecidableEq

/-- Read one column of a row. -/
def colValue (row : ArticleRow) : ColKey → ColVal
  | .reference => ColVal.text row.reference
  | .designation => ColVal.text row.designation
  | .prixUnitaire => ColVal.num row.prixUnitaire
  | .packaging => ColVal.num row.packaging
  | .quantite => ColVal.num row.quantite
  | .unite => ColVal.text row.unite
  | .poidsVolume => ColVal.num row.poidsVolume
  | .total => ColVal.num row.total
  | .marque => ColVal.text row.marque
  | .categorie => ColVal.text row.categorie

/-- Hex digit value of a character. -/
def hexVal (c : Char) : Option Nat :=
  if '0' ≤ c ∧ c ≤ '9' then some (c.toNat - 48)
  else if 'a' ≤ c ∧ c ≤ 'f' then some (c.toNat - 87)
  else if 'A' ≤ c ∧ c ≤ 'F' then some (c.toNat - 55)
  else none

/-- Alpha channel encoded by the last two hex digits of an 8-digit CSS hex
color, as a fraction of 255. -/
def alphaOfStyle (cs : List Char) : Option ℚ :=
  match cs.reverse with
  | c0 :: c1 :: _ =>
    match hexVal c1, hexVal c0 with
    | some hi, some lo => some (mkRat (16 * hi + lo : Int) 255)
    | _, _ => none
  | _ => none

/-- ExtractionWorkspace.tsx, getFieldBackgroundColor: the stored metadata
color with the literal hex suffix 30 appended (the comment beside it reads
Add 30 percent opacity). -/
def getFieldBackgroundColor (metadataColors : List (String × List Char))
    (fieldName : String) : Option (List Char) :=
  match metadataColors.find? (fun kv => kv.1 == fieldName) with
  | some kv => some (kv.2 ++ "30".toList)
  | none => none

/-- EditableArticlesTable.tsx, rowStyle: the article highlight color with the
same literal hex suffix 30 appended. -/
def rowBackgroundStyle (row : ArticleRow) : Option (List Char) :=
  row.highlightColor.map (fun c => c ++ "30".toList)

/-- Modelled from the spec: the annotated PDF rectangles use 0.2 opacity. -/
def pdfHighlightAlpha : ℚ := mkRat 1 5

/-- An alpha value of approximately 30 percent (within 0.05). -/
def approxAlpha30 (x : ℚ) : Prop := mkRat 1 4 ≤ x ∧ x ≤ mkRat 7 20

/-- An alpha value of approximately 20 percent (within 0.05). -/
def approxAlpha20 (x : ℚ) : Prop := mkRat 3 20 ≤ x ∧ x ≤ mkRat 1 4

/-- Decimal digit values of a natural number, most significant first; a zero
keeps one digit. -/
def digitsBE (n : Nat) : List Nat :=
  if n = 0 then [0] else (Nat.digits 10 n).reverse

/-- Decimal digit values of n padded with leading zeros to width e. -/
def padDigits (n e : Nat) : List Nat :=
  List.replicate (e - (Nat.digits 10 n).length) 0 ++ (Nat.digits 10 n).reverse

/-- Decimal digit characters of a natural number, most significant first. -/
def printNat (n : Nat) : List Char :=
  (digitsBE n).map Nat.digitChar

/-- Decimal digits of n padded with leading zeros to width e. -/
def printNatPad (n e : Nat) : List Char :=
  (padDigits n e).map Nat.digitChar

/-- Smallest decimal scale (below 29) whose power of ten clears the
denominator of q, if any. -/
def findScale (q : ℚ) : Option Nat :=
  (List.range 29).find? (fun e => decide (q.den ∣ 10 ^ e))

/-- Decimal rendering of a rational number used by the markdown encoder of
the round-trip test: sign, integer digits, and a fractional part when the
scale is positive.  A value with no decimal representation below scale 29
renders as a question mark and cannot round-trip. -/
def printDec (q : ℚ) : List Char :=
  match findScale q with
  | none => ['?']
  | some e =>
    let m := q.num.natAbs * 10 ^ e / q.den
    (if q.num < 0 then ['-'] else []) ++ printNat (m / 10 ^ e) ++
      (if e = 0 then [] else '.' :: printNatPad (m % 10 ^ e) e)

/-- Markdown cell text of an optional text field. -/
def encTextCell : Option (List Char) → List Char
  | none => []
  | some s => s

/-- Markdown cell text of an optional numeric field. -/
def encNumCell : Option ℚ → List Char
  | none => []
  | some q => printDec q

/-- The ten markdown cells of a record, in canonical column order. -/
def encodeRecordCells (r : ArticleRecord) : List (List Char) :=
  [encTextCell r.reference, encTextCell r.designation,
   encNumCell r.prixUnitaire, encNumCell r.packaging, encNumCell r.quantite,
   encTextCell r.unite, encNumCell r.poidsVolume, encNumCell r.total,
   encTextCell r.marque, encTextCell r.categorie]

/-- Concatenated body of one markdown row: each cell padded with one space on
each side and closed with a pipe. -/
def encodeRowGo : List (List Char) → List Char
  | [] => []
  | c :: cs => ' ' :: (c ++ ' ' :: '|' :: encodeRowGo cs)

/-- One markdown table row: a leading pipe, then the padded cells. -/
def encodeRow (cells : List (List Char)) : List Char :=
  '|' :: encodeRowGo cells

/-- The header cells of the encoded table. -/
def headerCells : List (List Char) :=
  ["Reference".toList, "Désignation".toList, "Prix Unitaire".toList,
   "Packaging".toList, "Quantité".toList, "Unité".toList,
   "Poids/Volume".toList, "Total".toList, "Marque".toList,
   "Catégorie".toList]

/-- The header row of the encoded table. -/
def headerRow : List Char := encodeRow headerCells

/-- The separator row of the encoded table. -/
def sepRow : List Char := encodeRow (List.replicate 10 "---".toList)

/-- Rows joined with single newline characters. -/
def joinLines : List (List Char) → List Char
  | [] => []
  | [r] => r
  | r :: rs => r ++ newlineChar :: joinLines rs

/-- The markdown table encoding of a record list: header row, separator row,
one encoded row per record, joined by newlines. -/
def encodeMarkdownTable (rs : List ArticleRecord) : List Char :=
  joinLines (headerRow :: sepRow :: rs.map (fun r => encodeRow (encodeRecordCells r)))

/-- A text value that survives the markdown cell round trip: nonempty, free
of pipes and newlines, with no leading or trailing space, and holding some
character besides dashes and colons (so the row is not read as a separator). -/
abbrev goodText (s : List Char) : Prop :=
  s ≠ [] ∧ '|' ∉ s ∧ newlineChar ∉ s ∧
    s.head? ≠ some ' ' ∧ s.getLast? ≠ some ' ' ∧
    ∃ c ∈ s, c ≠ '-' ∧ c ≠ ':'

/-- A numeric value with an exact decimal representation below scale 29. -/
abbrev goodNum (q : ℚ) : Prop := ∃ e ∈ List.range 29, q.den ∣ 10 ^ e

/-- An optional text field that survives the round trip. -/
abbrev goodTextOpt : Option (List Char) → Prop
  | none => True
  | some s => goodText s

/-- An optional numeric field that survives the round trip. -/
abbrev goodNumOpt : Option ℚ → Prop
  | none => True
  | some q => goodNum q

/-- A record that survives the markdown round trip: every populated field
well formed and at least one field populated. -/
abbrev goodRecord (r : ArticleRecord) : Prop :=
  goodTextOpt r.reference ∧ goodTextOpt r.designation ∧
    goodNumOpt r.prixUnitaire ∧ goodNumOpt r.packaging ∧
    goodNumOpt r.quantite ∧ goodTextOpt r.unite ∧
    goodNumOpt r.poidsVolume ∧ goodNumOpt r.total ∧
    goodTextOpt r.marque ∧ goodTextOpt r.categorie ∧ r ≠ emptyRecord

/-- Claim C1: the Fuzzy Validator is deterministic — two calls on the identical
(record, line-text) input yield the identical verdict and the identical
missing-field set — and the verdict attached to the API response agrees with
the verdict that chose the highlight color: the highlight is green exactly
when the attached verdict is correct. -/
theorem fuzzy_validator_deterministic (fields : List (String × FieldVal))
    (line : List Char) :
    find_missing_values line fields = find_missing_values line fields ∧
    addValidationStatus line fields = addValidationStatus line fields ∧
    (articleHighlightColor line fields = greenRGB ↔
      (addValidationStatus line fields).1 = Verdict.correct) := by
  refine ⟨rfl, rfl, ?_⟩
  by_cases h : (find_missing_values line fields).isEmpty <;>
    simp [articleHighlightColor, addValidationStatus, h, greenRGB, redRGB]

/-- A non-null field value is found exactly when one of the two matching
strategies succeeds on some token of the line. -/
theorem valueFound_iff_strategy (toks : List (List Char)) (v : FieldVal)
    (hv : v ≠ FieldVal.vnull) :
    valueFound toks v = true ↔
      ∃ tok ∈ toks, fuzzyStrategy v tok = true ∨ numericStrategy v tok = true := by
  cases v with
  | vnull => exact absurd rfl hv
  | vstr s => simp [valueFound, fuzzyStrategy, numericStrategy, List.any_eq_true]
  | vnum q => simp [valueFound, fuzzyStrategy, numericStrategy, List.any_eq_true]

/-- Claim C2: a populated field is outside the missing set exactly when one of
the two matching strategies (approximate string similarity for text fields,
exact numeric equality for numeric fields) succeeds on some token; the verdict
is correct iff the missing set is empty, error iff it is nonempty, and the
attached missing-field names are exactly that set. -/
theorem validator_found_iff_strategies (fields : List (String × FieldVal))
    (line : List Char) :
    (∀ k v, (k, v) ∈ fields → v ≠ FieldVal.vnull →
      ((k, v) ∉ find_missing_values line fields ↔
        ∃ tok ∈ lineTokens line,
          fuzzyStrategy v tok = true ∨ numericStrategy v tok = true)) ∧
    ((addValidationStatus line fields).1 = Verdict.correct ↔
      find_missing_values line fields = []) ∧
    ((addValidationStatus line fields).1 = Verdict.error ↔
      find_missing_values line fields ≠ []) ∧
    (addValidationStatus line fields).2 =
      (if find_missing_values line fields = [] then none
       else some ((find_missing_values line fields).map Prod.fst)) := by
  refine ⟨?_, ?_⟩
  · intro k v hmem hv
    rw [← valueFound_iff_strategy (lineTokens line) v hv]
    simp [find_missing_values, List.mem_filter, hmem]
  · by_cases h : find_missing_values line fields = [] <;>
      simp [addValidationStatus, h, List.isEmpty_iff]

/-- Concrete instance of claim C2 at the scenario-B record: the unit price 15
matches no token of the line, so the validator reports exactly that field
missing, and the general theorem applies at this input. -/
theorem validator_found_iff_strategies_witness :
    find_missing_values "REF001 Widget 6 2 10.50 21.00".toList
        [("Prix Unitaire", FieldVal.vnum (mkRat 15 1))] =
      [("Prix Unitaire", FieldVal.vnum (mkRat 15 1))] ∧
    ((∀ k v, (k, v) ∈ [("Prix Unitaire", FieldVal.vnum (mkRat 15 1))] → v ≠ FieldVal.vnull →
      ((k, v) ∉ find_missing_values "REF001 Widget 6 2 10.50 21.00".toList
          [("Prix Unitaire", FieldVal.vnum (mkRat 15 1))] ↔
        ∃ tok ∈ lineTokens "REF001 Widget 6 2 10.50 21.00".toList,
          fuzzyStrategy v tok = true ∨ numericStrategy v tok = true)) ∧
    ((addValidationStatus "REF001 Widget 6 2 10.50 21.00".toList
        [("Prix Unitaire", FieldVal.vnum (mkRat 15 1))]).1 = Verdict.correct ↔
      find_missing_values "REF001 Widget 6 2 10.50 21.00".toList
        [("Prix Unitaire", FieldVal.vnum (mkRat 15 1))] = []) ∧
    ((addValidationStatus "REF001 Widget 6 2 10.50 21.00".toList
        [("Prix Unitaire", FieldVal.vnum (mkRat 15 1))]).1 = Verdict.error ↔
      find_missing_values "REF001 Widget 6 2 10.50 21.00".toList
        [("Prix Unitaire", FieldVal.vnum (mkRat 15 1))] ≠ []) ∧
    (addValidationStatus "REF001 Widget 6 2 10.50 21.00".toList
        [("Prix Unitaire", FieldVal.vnum (mkRat 15 1))]).2 =
      (if find_missing_values "REF001 Widget 6 2 10.50 21.00".toList
          [("Prix Unitaire", FieldVal.vnum (mkRat 15 1))] = [] then none
       else some ((find_missing_values "REF001 Widget 6 2 10.50 21.00".toList
          [("Prix Unitaire", FieldVal.vnum (mkRat 15 1))]).map Prod.fst))) :=
  ⟨by decide, validator_found_iff_strategies _ _⟩

/-- When the first components of an association list are nodup, a key
determines its value. -/
theorem assoc_val_unique {l : List (String × FieldVal)}
    (hnd : (l.map Prod.fst).Nodup) {k : String} {a b : FieldVal}
    (ha : (k, a) ∈ l) (hb : (k, b) ∈ l) : a = b := by
  induction l with
  | nil => cases ha
  | cons hd tl ih =>
    simp only [List.map_cons, List.nodup_cons] at hnd
    obtain ⟨hhd, htl⟩ := hnd
    cases List.mem_cons.mp ha with
    | inl h1 =>
      cases List.mem_cons.mp hb with
      | inl h2 =>
        have h3 : (k, a) = (k, b) := h1.trans h2.symm
        injection h3 with hk hv
      | inr h2 =>
        rw [← h1] at hhd
        exact absurd (List.mem_map_of_mem Prod.fst h2) hhd
    | inr h1 =>
      cases List.mem_cons.mp hb with
      | inl h2 =>
        rw [← h2] at hhd
        exact absurd (List.mem_map_of_mem Prod.fst h1) hhd
      | inr h2 => exact ih htl h1 h2

/-- Claim C6: a numeric field whose value equals some numeric token of the
line after decimal-separator normalization (such as token 12,50 against value
12.50) is found, hence not added to the missing-fields set. -/
theorem numeric_token_eq_not_missing (fields : List (String × FieldVal))
    (line : List Char) (k : String) (q : ℚ)
    (hnd : (fields.map Prod.fst).Nodup)
    (hmem : (k, FieldVal.vnum q) ∈ fields)
    (htok : ∃ tok ∈ lineTokens line, numTokenMatch q tok = true) :
    k ∉ (find_missing_values line fields).map Prod.fst := by
  intro hk
  rcases List.mem_map.mp hk with ⟨⟨k2, v⟩, hv, hk2⟩
  simp only at hk2
  subst hk2
  have hvmem : (k2, v) ∈ fields := (List.mem_filter.mp hv).1
  have hnf : ¬(valueFound (lineTokens line) v = true) := by
    have h2 := (List.mem_filter.mp hv).2
    simp only [Bool.not_eq_true'] at h2
    simp [h2]
  have hveq : v = FieldVal.vnum q := assoc_val_unique hnd hvmem hmem
  subst hveq
  rcases htok with ⟨tok, htoks, hmatch⟩
  exact hnf (by simp only [valueFound, List.any_eq_true]; exact ⟨tok, htoks, hmatch⟩)

/-- Concrete instance of claim C6: the article value 12.50 (as 25/2) against a
line holding the token 12,50 is found, so the field is not missing. -/
theorem numeric_token_eq_not_missing_witness :
    (([("Prix Unitaire", FieldVal.vnum (mkRat 25 2))].map Prod.fst).Nodup ∧
      ("Prix Unitaire", FieldVal.vnum (mkRat 25 2)) ∈
        [("Prix Unitaire", FieldVal.vnum (mkRat 25 2))] ∧
      ∃ tok ∈ lineTokens "ART 12,50".toList,
        numTokenMatch (mkRat 25 2) tok = true) ∧
    "Prix Unitaire" ∉ (find_missing_values "ART 12,50".toList
      [("Prix Unitaire", FieldVal.vnum (mkRat 25 2))]).map Prod.fst :=
  ⟨⟨by decide, by decide, by decide⟩,
    numeric_token_eq_not_missing [("Prix Unitaire", FieldVal.vnum (mkRat 25 2))]
      "ART 12,50".toList "Prix Unitaire" (mkRat 25 2)
      (by decide) (by decide) (by decide)⟩

/-- Claim C3: the Article Normalizer output has length at least one; the
output is an order-preserving subsequence of the decoded input rows unless
everything was empty, in which case it is the single placeholder record. -/
theorem normalizer_nonempty_and_ordered (p : RawArticles) :
    1 ≤ (normalizeArticles p).length ∧
    ((normalizeArticles p).Sublist (decodeRows p) ∨
      normalizeArticles p = [emptyRecord]) := by
  by_cases h : ((decodeRows p).filter (fun r => decide (r ≠ emptyRecord))).isEmpty
  · rw [normalizeArticles, if_pos h]
    exact ⟨by simp, Or.inr rfl⟩
  · rw [normalizeArticles, if_neg h]
    refine ⟨?_, Or.inl (List.filter_sublist _)⟩
    have hne : (decodeRows p).filter (fun r => decide (r ≠ emptyRecord)) ≠ [] := by
      intro hEq
      rw [hEq] at h
      exact h rfl
    have hpos := List.length_pos.mpr hne
    omega

/-- Claim C4: article_colors has the same length as the articles sequence,
the color at index i is the highlight color of article i, and the frontend
attaches exactly the color of index i onto row i, so the alignment survives
from annotation to the consumer. -/
theorem article_colors_aligned (doc : List (List Char))
    (articles : List ArticleRecord) :
    (buildColorMapping doc articles).article_colors.length = articles.length ∧
    (∀ i, (buildColorMapping doc articles).article_colors.get? i =
      (articles.get? i).map (articleColorHex doc)) ∧
    (∀ i, (attachHighlightColors (articles.map rowOfRecord)
        (buildColorMapping doc articles).article_colors).get? i =
      ((articles.map rowOfRecord).get? i).map
        (fun row => { row with highlightColor :=
          (buildColorMapping doc articles).article_colors.get? i })) := by
  refine ⟨by simp [buildColorMapping], fun i => ?_, fun i => ?_⟩
  · simp [buildColorMapping, List.get?_eq_getElem?, List.getElem?_map]
  · simp only [attachHighlightColors, List.get?_eq_getElem?, List.getElem?_map,
      List.getElem?_enum]
    rcases hx : articles[i]? with _ | a <;> simp [hx]

/-- Claim C5: an invoice type the structuring model classifies as unsupported
makes the orchestrator fail with the unsupportedInvoiceType error, which is
distinct from the generic failures, and whose message triggers the specific
frontend toast instead of the raw message. -/
theorem unsupported_invoice_type_distinct (ocrText : List Char)
    (structureOf : List Char → StructuringOutcome) (doc : List (List Char))
    (h : structureOf ocrText = StructuringOutcome.unsupported) :
    orchestrate (some ocrText) structureOf doc =
      Except.error ExtractError.unsupportedInvoiceType ∧
    ExtractError.unsupportedInvoiceType ≠ ExtractError.structuringFailed ∧
    ExtractError.unsupportedInvoiceType ≠ ExtractError.ocrUnavailable ∧
    frontendToastFor (backendErrorMessage ExtractError.unsupportedInvoiceType) =
      frontendUnsupportedToast := by
  refine ⟨?_, by decide, by decide, ?_⟩
  · simp [orchestrate, h]
  · have hin : List.IsInfix "Invoice type not supported".toList
        (backendErrorMessage ExtractError.unsupportedInvoiceType) :=
      List.infix_rfl
    rw [frontendToastFor, if_pos hin]

/-- Concrete instance of claim C5: a structuring stage reporting unsupported
makes the pipeline return the unsupportedInvoiceType error. -/
theorem unsupported_invoice_type_distinct_witness :
    orchestrate (some "facture".toList)
        (fun _ => StructuringOutcome.unsupported) [] =
      Except.error ExtractError.unsupportedInvoiceType :=
  (unsupported_invoice_type_distinct "facture".toList
    (fun _ => StructuringOutcome.unsupported) [] rfl).1

/-- Claim C8 (code bug): the consumer appends the literal hex suffix 30 to the
highlight color, both on metadata fields and on table rows; the resulting
alpha channel is 48 over 255, about 19 percent, not the approximately 30
percent that the claim and the code comment beside the append describe, while
the modelled PDF rectangles do use approximately 20 percent. -/
theorem consumer_alpha_not_thirty_percent :
    getFieldBackgroundColor [("supplier_name", "008000".toList)]
        "supplier_name" = some "00800030".toList ∧
    rowBackgroundStyle { highlightColor := some "008000".toList } =
      some "00800030".toList ∧
    alphaOfStyle "00800030".toList = some (mkRat 48 255) ∧
    ¬approxAlpha30 (mkRat 48 255) ∧
    approxAlpha20 pdfHighlightAlpha := by
  refine ⟨by decide, by decide, by decide, ?_, ?_⟩
  · unfold approxAlpha30
    decide
  · unfold approxAlpha20 pdfHighlightAlpha
    decide

/-- Claim C9: a non-ok extraction response throws the response body text, or
the fixed fallback message when that text is empty, and never yields a result
value; an ok response returns the parsed JSON body. -/
theorem runExtraction_result_spec (resp : FetchResponse) :
    (resp.ok = false →
      runExtraction resp = Except.error
        (if resp.bodyText = "" then extractionErrorFallback else resp.bodyText) ∧
      ∀ v, runExtraction resp ≠ Except.ok v) ∧
    (resp.ok = true → runExtraction resp = Except.ok resp.jsonBody) := by
  constructor
  · intro h
    constructor
    · simp [runExtraction, h]
    · intro v hv
      simp [runExtraction, h] at hv
  · intro h
    simp [runExtraction, h]

/-- Concrete instance of claim C9: a failed response with an empty body
throws the fixed fallback message. -/
theorem runExtraction_result_spec_witness :
    runExtraction ⟨false, "", ⟨[], ⟨[], []⟩⟩⟩ =
      Except.error extractionErrorFallback := by
  have h := ((runExtraction_result_spec ⟨false, "", ⟨[], ⟨[], []⟩⟩⟩).1 rfl).1
  simpa using h

/-- Claim C10: updateArticle leaves every other row unchanged, keeps the
length, and rewrites row i through applyEdit: userEdited is raised, a numeric
column receives null for the empty string and the parsed number otherwise
(null again, never NaN, when parsing fails), a text column receives the raw
string, and the other columns of the row keep their values. -/
theorem updateArticle_spec (articles : List ArticleRow) (i : Nat) (key : ColKey)
    (value : List Char) (h : i < articles.length) :
    (updateArticle articles i key value).length = articles.length ∧
    (∀ j, j ≠ i → (updateArticle articles i key value).get? j = articles.get? j) ∧
    (∃ row, articles.get? i = some row ∧
      (updateArticle articles i key value).get? i =
        some (applyEdit row key value)) ∧
    (∀ row, (applyEdit row key value).userEdited = true) ∧
    (numericColKeys.contains key = true →
      ∀ row, colValue (applyEdit row key value) key =
        ColVal.num (if value = [] then none else jsNumber value)) ∧
    (numericColKeys.contains key = false →
      ∀ row, colValue (applyEdit row key value) key = ColVal.text (some value)) ∧
    (∀ row k2, k2 ≠ key → colValue (applyEdit row key value) k2 = colValue row k2) := by
  obtain ⟨row, hrow⟩ : ∃ row, articles.get? i = some row := by
    rw [List.get?_eq_getElem?, List.getElem?_eq_getElem h]
    exact ⟨_, rfl⟩
  have hupd : updateArticle articles i key value =
      articles.set i (applyEdit row key value) := by
    rw [updateArticle, hrow]
  refine ⟨?_, ?_, ⟨row, hrow, ?_⟩, ?_, ?_, ?_, ?_⟩
  · rw [hupd]
    simp
  · intro j hj
    rw [hupd, List.get?_eq_getElem?, List.get?_eq_getElem?]
    exact List.getElem?_set_ne (fun hEq => hj (by omega))
  · rw [hupd, List.get?_eq_getElem?]
    exact List.getElem?_set_self (by simpa using h)
  · intro row2
    cases key <;> simp [applyEdit]
  · intro hk row2
    cases key <;>
      simp_all [numericColKeys, applyEdit, colValue, parsedNumericValue]
  · intro hk row2
    cases key <;>
      simp_all [numericColKeys, applyEdit, colValue]
  · intro row2 k2 hk2
    cases key <;> cases k2 <;> simp_all [applyEdit, colValue]

/-- Concrete instance of claim C10: editing the unit-price column of the only
row with the text 12.5 stores the number 12.5 and raises userEdited. -/
theorem updateArticle_spec_witness :
    updateArticle [({} : ArticleRow)] 0 ColKey.prixUnitaire "12.5".toList =
      [{ prixUnitaire := some (mkRat 25 2), userEdited := true }] ∧
    (updateArticle [({} : ArticleRow)] 0 ColKey.prixUnitaire
      "12.5".toList).length = ([({} : ArticleRow)]).length :=
  ⟨by decide,
    (updateArticle_spec [({} : ArticleRow)] 0 ColKey.prixUnitaire
      "12.5".toList (by decide)).1⟩

/-- Splitting a list free of the separator yields that single piece. -/
theorem splitOnChar_of_not_mem {c : Char} {l : List Char} (h : c ∉ l) :
    splitOnChar c l = [l] := by
  induction l with
  | nil => rfl
  | cons x xs ih =>
    have hx : ¬(x = c) := by
      intro hEq
      subst hEq
      exact h (List.mem_cons_self _ _)
    have ih2 := ih (fun hc => h (List.mem_cons_of_mem _ hc))
    simp only [splitOnChar, if_neg hx, ih2]

/-- Splitting after a separator-free prefix peels that prefix off. -/
theorem splitOnChar_append {c : Char} {l rest : List Char} (h : c ∉ l) :
    splitOnChar c (l ++ c :: rest) = l :: splitOnChar c rest := by
  induction l with
  | nil => simp [splitOnChar]
  | cons x xs ih =>
    have hx : ¬(x = c) := by
      intro hEq
      subst hEq
      exact h (List.mem_cons_self _ _)
    have ih2 := ih (fun hc => h (List.mem_cons_of_mem _ hc))
    simp only [List.cons_append, splitOnChar, if_neg hx, List.append_eq, ih2]

/-- Joining newline-free rows and splitting on newlines is the identity. -/
theorem splitOnChar_joinLines {rows : List (List Char)} (hne : rows ≠ [])
    (h : ∀ r ∈ rows, newlineChar ∉ r) :
    splitOnChar newlineChar (joinLines rows) = rows := by
  induction rows with
  | nil => exact absurd rfl hne
  | cons r rest ih =>
    cases rest with
    | nil =>
      simp only [joinLines]
      exact splitOnChar_of_not_mem (h r (List.mem_cons_self _ _))
    | cons r2 rest2 =>
      have h1 : newlineChar ∉ r := h r (List.mem_cons_self _ _)
      have hrec := ih (by simp) (fun s hs => h s (List.mem_cons_of_mem _ hs))
      simp only [joinLines]
      rw [splitOnChar_append h1, hrec]

/-- Dropping leading spaces of a list whose head is no space is the identity. -/
theorem dropWhile_space_id {l : List Char} (h : l.head? ≠ some ' ') :
    l.dropWhile (fun ch => ch == ' ') = l := by
  cases l with
  | nil => rfl
  | cons x xs =>
    have hx : x ≠ ' ' := by
      intro hEq
      exact h (by simp [hEq])
    simp [List.dropWhile_cons, hx]

/-- Trimming undoes the one-space padding of a cell that carries no leading
or trailing space. -/
theorem trimChars_pad {c : List Char} (h1 : c.head? ≠ some ' ')
    (h2 : c.getLast? ≠ some ' ') :
    trimChars (' ' :: (c ++ [' '])) = c := by
  cases c with
  | nil => decide
  | cons x xs =>
    have hx : x ≠ ' ' := by
      intro hEq
      exact h1 (by simp [hEq])
    have step1 : (' ' :: ((x :: xs) ++ [' '])).dropWhile (fun ch => ch == ' ')
        = (x :: xs) ++ [' '] := by
      rw [List.dropWhile_cons]
      simp only [beq_self_eq_true, if_true]
      rw [List.cons_append, List.dropWhile_cons]
      simp [hx]
    unfold trimChars
    rw [step1]
    rw [show ((x :: xs) ++ [' ']).reverse = ' ' :: (x :: xs).reverse from by simp]
    rw [List.dropWhile_cons]
    simp only [beq_self_eq_true, if_true]
    rw [dropWhile_space_id (by rw [List.head?_reverse]; exact h2)]
    exact List.reverse_reverse _

/-- A row body made of newline-free cells holds no newline. -/
theorem newline_not_mem_encodeRowGo {cells : List (List Char)}
    (h : ∀ cel ∈ cells, newlineChar ∉ cel) :
    newlineChar ∉ encodeRowGo cells := by
  induction cells with
  | nil => simp [encodeRowGo]
  | cons c cs ih =>
    intro hmem
    rw [encodeRowGo] at hmem
    rcases List.mem_cons.mp hmem with h1 | h1
    · exact absurd h1 (by decide)
    · rcases List.mem_append.mp h1 with h2 | h2
      · exact h c (List.mem_cons_self _ _) h2
      · rcases List.mem_cons.mp h2 with h3 | h3
        · exact absurd h3 (by decide)
        · rcases List.mem_cons.mp h3 with h4 | h4
          · exact absurd h4 (by decide)
          · exact ih (fun cel hc => h cel (List.mem_cons_of_mem _ hc)) h4

/-- An encoded row made of newline-free cells holds no newline. -/
theorem newline_not_mem_encodeRow {cells : List (List Char)}
    (h : ∀ cel ∈ cells, newlineChar ∉ cel) :
    newlineChar ∉ encodeRow cells := by
  intro hmem
  rcases List.mem_cons.mp hmem with h1 | h1
  · exact absurd h1 (by decide)
  · exact newline_not_mem_encodeRowGo h h1

/-- Splitting an encoded row body on pipes recovers the padded cells and one
trailing empty segment, when no cell holds a pipe. -/
theorem splitOnChar_encodeRowGo {cells : List (List Char)}
    (h : ∀ cel ∈ cells, '|' ∉ cel) :
    splitOnChar '|' (encodeRowGo cells) =
      cells.map (fun cel => ' ' :: (cel ++ [' '])) ++ [[]] := by
  induction cells with
  | nil => rfl
  | cons c cs ih =>
    have hc : '|' ∉ ' ' :: (c ++ [' ']) := by
      intro hm
      rcases List.mem_cons.mp hm with h1 | h1
      · exact absurd h1 (by decide)
      · rcases List.mem_append.mp h1 with h2 | h2
        · exact h c (List.mem_cons_self _ _) h2
        · rcases List.mem_cons.mp h2 with h3 | h3
          · exact absurd h3 (by decide)
          · cases h3
    have ih2 := ih (fun cel hcel => h cel (List.mem_cons_of_mem _ hcel))
    have hshape : encodeRowGo (c :: cs) =
        (' ' :: (c ++ [' '])) ++ '|' :: encodeRowGo cs := by
      simp [encodeRowGo]
    rw [hshape, splitOnChar_append hc, ih2]
    simp

/-- Decoding an encoded row yields the trimmed padded cells. -/
theorem rowCells_encodeRow {cells : List (List Char)}
    (h : ∀ cel ∈ cells, '|' ∉ cel) :
    rowCells (encodeRow cells) =
      cells.map (fun cel => trimChars (' ' :: (cel ++ [' ']))) := by
  have hsplit : splitOnChar '|' (encodeRow cells) =
      [] :: (cells.map (fun cel => ' ' :: (cel ++ [' '])) ++ [[]]) := by
    rw [encodeRow,
      show splitOnChar '|' ('|' :: encodeRowGo cells) =
        [] :: splitOnChar '|' (encodeRowGo cells) from by simp [splitOnChar],
      splitOnChar_encodeRowGo h]
  rw [rowCells, hsplit]
  simp [List.dropLast_concat, List.map_map, Function.comp]

/-- Decoding an encoded row of pipe-free, trim-stable cells recovers the
cells exactly. -/
theorem rowCells_encodeRow_id {cells : List (List Char)}
    (h : ∀ cel ∈ cells, '|' ∉ cel)
    (ht : ∀ cel ∈ cells, cel.head? ≠ some ' ' ∧ cel.getLast? ≠ some ' ') :
    rowCells (encodeRow cells) = cells := by
  rw [rowCells_encodeRow h]
  have hpt : ∀ cel ∈ cells, trimChars (' ' :: (cel ++ [' '])) = cel :=
    fun cel hc => trimChars_pad (ht cel hc).1 (ht cel hc).2
  calc cells.map (fun cel => trimChars (' ' :: (cel ++ [' '])))
      = cells.map id := List.map_congr_left hpt
    _ = cells := List.map_id cells

/-- Reading back the digit character of a digit value. -/
theorem digitVal_digitChar {d : Nat} (h : d < 10) :
    digitVal (Nat.digitChar d) = some d := by
  interval_cases d <;> decide

/-- A digit character is none of the special markdown characters. -/
theorem digitChar_not_special {d : Nat} (h : d < 10) :
    Nat.digitChar d ≠ '|' ∧ Nat.digitChar d ≠ newlineChar ∧
      Nat.digitChar d ≠ ' ' ∧ Nat.digitChar d ≠ '-' ∧ Nat.digitChar d ≠ ':' := by
  interval_cases d <;> decide

/-- Digit values of digitsBE are below ten. -/
theorem digitsBE_lt {n d : Nat} (h : d ∈ digitsBE n) : d < 10 := by
  unfold digitsBE at h
  by_cases hn : n = 0
  · rw [if_pos hn] at h
    have := List.mem_singleton.mp h
    omega
  · rw [if_neg hn] at h
    exact Nat.digits_lt_base (by norm_num) (List.mem_reverse.mp h)

/-- digitsBE is never empty. -/
theorem digitsBE_ne_nil (n : Nat) : digitsBE n ≠ [] := by
  unfold digitsBE
  by_cases hn : n = 0
  · simp [hn]
  · rw [if_neg hn]
    simp [Nat.digits_ne_nil_iff_ne_zero.mpr hn]

/-- Big-endian digit folding over an appended digit. -/
theorem ofDigitsBE_concat (l : List Nat) (x : Nat) :
    ofDigitsBE (l ++ [x]) = 10 * ofDigitsBE l + x := by
  simp [ofDigitsBE, List.foldl_append]

/-- Big-endian folding of reversed little-endian digits is ofDigits. -/
theorem ofDigitsBE_reverse (L : List Nat) :
    ofDigitsBE L.reverse = Nat.ofDigits 10 L := by
  induction L with
  | nil => simp [ofDigitsBE, Nat.ofDigits_nil]
  | cons x xs ih =>
    rw [List.reverse_cons, ofDigitsBE_concat, ih, Nat.ofDigits_cons]
    ring

/-- The value of the big-endian digit list of n is n. -/
theorem ofDigitsBE_digitsBE (n : Nat) : ofDigitsBE (digitsBE n) = n := by
  unfold digitsBE
  by_cases hn : n = 0
  · simp [hn, ofDigitsBE]
  · rw [if_neg hn, ofDigitsBE_reverse, Nat.ofDigits_digits]

/-- Zeros in front do not change the big-endian value. -/
theorem ofDigitsBE_zeros (k : Nat) (l : List Nat) :
    ofDigitsBE (List.replicate k 0 ++ l) = ofDigitsBE l := by
  induction k with
  | zero => rfl
  | succ k ih =>
    rw [List.replicate_succ, List.cons_append]
    have h0 : ofDigitsBE (0 :: (List.replicate k 0 ++ l)) =
        ofDigitsBE (List.replicate k 0 ++ l) := by
      simp [ofDigitsBE]
    rw [h0, ih]

/-- takeDigits consumes exactly a digit-character prefix and stops at the
first non-digit. -/
theorem takeDigits_map {ds : List Nat} (h : ∀ d ∈ ds, d < 10) :
    ∀ {rest : List Char}, (∀ c, rest.head? = some c → digitVal c = none) →
    takeDigits (ds.map Nat.digitChar ++ rest) = (ds, rest) := by
  induction ds with
  | nil =>
    intro rest hrest
    cases rest with
    | nil => rfl
    | cons c cs =>
      rw [List.map_nil, List.nil_append, takeDigits, hrest c rfl]
  | cons d ds2 ih =>
    intro rest hrest
    rw [List.map_cons, List.cons_append, takeDigits,
      digitVal_digitChar (h d (List.mem_cons_self _ _)),
      ih (fun x hx => h x (List.mem_cons_of_mem _ hx)) hrest]

/-- parseMantissa reads a bare integer print back. -/
theorem parseMantissa_printNat (n : Nat) :
    parseMantissa (printNat n) = some (n, 1) := by
  have h1 : takeDigits ((digitsBE n).map Nat.digitChar ++ []) = (digitsBE n, []) :=
    takeDigits_map (fun d hd => digitsBE_lt hd) (fun c hc => by cases hc)
  rw [List.append_nil] at h1
  rw [printNat]
  simp only [parseMantissa, h1]
  rw [if_neg (by simp [List.isEmpty_iff, digitsBE_ne_nil n]), ofDigitsBE_digitsBE]

/-- Digits length bound from a power bound. -/
theorem digits_len_le_of_lt_pow {n e : Nat} (h : n < 10 ^ e) :
    (Nat.digits 10 n).length ≤ e := by
  by_cases hn : n = 0
  · subst hn
    simp
  · by_contra hlt
    push_neg at hlt
    have h1 : 10 ^ (Nat.digits 10 n).length ≤ 10 * n :=
      Nat.base_pow_length_digits_le 10 n (by norm_num) hn
    have h2 : 10 ^ (e + 1) ≤ 10 ^ (Nat.digits 10 n).length :=
      Nat.pow_le_pow_right (by norm_num) hlt
    have h3 : 10 ^ (e + 1) = 10 * 10 ^ e := by ring
    omega

/-- The padded digit list has width e, value n, and digits below ten. -/
theorem padDigits_spec {n e : Nat} (h : n < 10 ^ e) :
    (padDigits n e).length = e ∧ ofDigitsBE (padDigits n e) = n ∧
      ∀ d ∈ padDigits n e, d < 10 := by
  have hlen := digits_len_le_of_lt_pow h
  refine ⟨?_, ?_, ?_⟩
  · simp only [padDigits, List.length_append, List.length_replicate,
      List.length_reverse]
    omega
  · rw [padDigits, ofDigitsBE_zeros, ofDigitsBE_reverse, Nat.ofDigits_digits]
  · intro d hd
    rw [padDigits] at hd
    rcases List.mem_append.mp hd with h1 | h1
    · have := List.eq_of_mem_replicate h1
      omega
    · exact Nat.digits_lt_base (by norm_num) (List.mem_reverse.mp h1)

/-- parseMantissa reads an integer-dot-fraction print back. -/
theorem parseMantissa_print_frac (ip fp e : Nat) (hfp : fp < 10 ^ e) :
    parseMantissa (printNat ip ++ '.' :: printNatPad fp e) =
      some (ip * 10 ^ e + fp, 10 ^ e) := by
  obtain ⟨hlen, hval, hlt⟩ := padDigits_spec hfp
  have hfracs : takeDigits ((padDigits fp e).map Nat.digitChar ++ []) =
      (padDigits fp e, []) :=
    takeDigits_map hlt (fun c hc => by cases hc)
  rw [List.append_nil] at hfracs
  have h1 : takeDigits ((digitsBE ip).map Nat.digitChar ++
      ('.' :: printNatPad fp e)) = (digitsBE ip, '.' :: printNatPad fp e) :=
    takeDigits_map (fun d hd => digitsBE_lt hd) (fun c hc => by
      have hc2 : '.' = c := by simpa using hc
      rw [← hc2]
      decide)
  have hne : (digitsBE ip).isEmpty = false := by
    simp [List.isEmpty_iff, digitsBE_ne_nil]
  simp only [parseMantissa, printNat, h1]
  simp only [printNatPad, hfracs]
  rw [if_pos (by simp [hne])]
  rw [ofDigitsBE_digitsBE, hval, hlen]

/-- A good rational has a found scale whose power of ten its denominator
divides. -/
theorem findScale_eq_some {q : ℚ} (h : goodNum q) :
    ∃ e, findScale q = some e ∧ q.den ∣ 10 ^ e := by
  obtain ⟨e, he, hdvd⟩ := h
  have hsome : (findScale q).isSome := by
    rw [findScale]
    refine List.find?_isSome.mpr ⟨e, he, by simpa using hdvd⟩
  obtain ⟨e0, he0⟩ := Option.isSome_iff_exists.mp hsome
  refine ⟨e0, he0, ?_⟩
  have := List.find?_some he0
  simpa using this

/-- parseMantissa reads the unsigned body of printDec back as the scaled
integer over its power-of-ten denominator. -/
theorem parseMantissa_printbody (m e : Nat) :
    parseMantissa (printNat (m / 10 ^ e) ++
      (if e = 0 then [] else '.' :: printNatPad (m % 10 ^ e) e)) =
      some (m, 10 ^ e) := by
  by_cases he : e = 0
  · subst he
    rw [if_pos rfl, List.append_nil, pow_zero, Nat.div_one, parseMantissa_printNat]
  · rw [if_neg he]
    have hpos : 0 < 10 ^ e := Nat.pos_pow_of_pos e (by norm_num)
    have hfp : m % 10 ^ e < 10 ^ e := Nat.mod_lt _ hpos
    rw [parseMantissa_print_frac _ _ _ hfp]
    have hm2 : m / 10 ^ e * 10 ^ e + m % 10 ^ e = m := by
      rw [Nat.mul_comm]
      exact Nat.div_add_mod m (10 ^ e)
    rw [hm2]

/-- The printed head of a natural number is a digit character. -/
theorem printNat_head (n : Nat) :
    ∃ d rest, d < 10 ∧ printNat n = Nat.digitChar d :: rest := by
  obtain ⟨d, ds, hds⟩ := List.exists_cons_of_ne_nil (digitsBE_ne_nil n)
  refine ⟨d, ds.map Nat.digitChar,
    digitsBE_lt (hds ▸ List.mem_cons_self d ds), ?_⟩
  rw [printNat, hds, List.map_cons]

/-- The scaled integer of printDec rebuilt with mkRat gives the rational
back (nonnegative numerator case). -/
theorem mkRat_scaled_nonneg {q : ℚ} {e t : Nat} (ht : 10 ^ e = q.den * t)
    (hq : 0 ≤ q.num) :
    mkRat ((q.num.natAbs * 10 ^ e / q.den : Nat) : Int) (10 ^ e) = q := by
  have hm : q.num.natAbs * 10 ^ e / q.den = q.num.natAbs * t := by
    rw [ht, show q.num.natAbs * (q.den * t) = q.den * (q.num.natAbs * t) from by
      ring]
    exact Nat.mul_div_cancel_left _ q.den_pos
  have hpow : (10 : Nat) ^ e ≠ 0 := Nat.pos_iff_ne_zero.mp
    (Nat.pos_pow_of_pos e (by norm_num))
  zify at ht
  have hgoal : ((q.num.natAbs * t : Nat) : Int) * q.den = q.num * (10 ^ e : Nat) := by
    push_cast
    rw [abs_of_nonneg hq, ht]
    ring
  rw [hm]
  exact ((Rat.mkRat_eq_iff hpow q.den_nz).mpr hgoal).trans (Rat.mkRat_self q)

/-- The scaled integer of printDec rebuilt with mkRat gives the rational
back (negative numerator case). -/
theorem mkRat_scaled_neg {q : ℚ} {e t : Nat} (ht : 10 ^ e = q.den * t)
    (hq : q.num < 0) :
    mkRat (-((q.num.natAbs * 10 ^ e / q.den : Nat) : Int)) (10 ^ e) = q := by
  have hm : q.num.natAbs * 10 ^ e / q.den = q.num.natAbs * t := by
    rw [ht, show q.num.natAbs * (q.den * t) = q.den * (q.num.natAbs * t) from by
      ring]
    exact Nat.mul_div_cancel_left _ q.den_pos
  have hpow : (10 : Nat) ^ e ≠ 0 := Nat.pos_iff_ne_zero.mp
    (Nat.pos_pow_of_pos e (by norm_num))
  zify at ht
  have hgoal : -((q.num.natAbs * t : Nat) : Int) * q.den = q.num * (10 ^ e : Nat) := by
    push_cast
    rw [abs_of_neg hq, ht]
    ring
  rw [hm]
  exact ((Rat.mkRat_eq_iff hpow q.den_nz).mpr hgoal).trans (Rat.mkRat_self q)

/-- parseDec inverts printDec on decimal-representable rationals. -/
theorem parseDec_printDec {q : ℚ} (h : goodNum q) :
    parseDec (printDec q) = some q := by
  obtain ⟨e, hfind, hdvd⟩ := findScale_eq_some h
  obtain ⟨t, ht⟩ := hdvd
  have hbody := parseMantissa_printbody (q.num.natAbs * 10 ^ e / q.den) e
  have hprint : printDec q = (if q.num < 0 then ['-'] else []) ++
      (printNat (q.num.natAbs * 10 ^ e / q.den / 10 ^ e) ++
        (if e = 0 then [] else
          '.' :: printNatPad (q.num.natAbs * 10 ^ e / q.den % 10 ^ e) e)) := by
    simp only [printDec, hfind]
    rw [List.append_assoc]
  by_cases hneg : q.num < 0
  · rw [hprint, if_pos hneg, List.singleton_append, parseDec]
    rw [if_pos (by rw [List.head?_cons])]
    simp only [List.drop_succ_cons, List.drop_zero, hbody, Option.map_some']
    exact congrArg some (mkRat_scaled_neg ht hneg)
  · obtain ⟨d, rest, hd, hdr⟩ := printNat_head (q.num.natAbs * 10 ^ e / q.den / 10 ^ e)
    rw [hprint, if_neg hneg, List.nil_append, parseDec]
    rw [if_neg (by
      rw [hdr, List.cons_append, List.head?_cons]
      intro hEq
      have hdc : Nat.digitChar d = '-' := by injection hEq
      exact (digitChar_not_special hd).2.2.2.1 hdc)]
    rw [hbody, Option.map_some']
    exact congrArg some (mkRat_scaled_nonneg ht (by omega))

/-- Every character of printNat is a digit character. -/
theorem printNat_chars {n : Nat} {c : Char} (h : c ∈ printNat n) :
    ∃ d, d < 10 ∧ c = Nat.digitChar d := by
  rw [printNat] at h
  obtain ⟨d, hd, hc⟩ := List.mem_map.mp h
  exact ⟨d, digitsBE_lt hd, hc.symm⟩

/-- Every character of printNatPad is a digit character. -/
theorem printNatPad_chars {n e : Nat} {c : Char} (h : c ∈ printNatPad n e) :
    ∃ d, d < 10 ∧ c = Nat.digitChar d := by
  rw [printNatPad] at h
  obtain ⟨d, hd, hc⟩ := List.mem_map.mp h
  refine ⟨d, ?_, hc.symm⟩
  rw [padDigits] at hd
  rcases List.mem_append.mp hd with h1 | h1
  · have := List.eq_of_mem_replicate h1
    omega
  · exact Nat.digits_lt_base (by norm_num) (List.mem_reverse.mp h1)

/-- Every character of printDec is a question mark, minus, dot, or digit. -/
theorem printDec_chars {q : ℚ} {c : Char} (h : c ∈ printDec q) :
    c = '?' ∨ c = '-' ∨ c = '.' ∨ ∃ d, d < 10 ∧ c = Nat.digitChar d := by
  rcases hfs : findScale q with _ | e <;> simp only [printDec, hfs] at h
  · left
    simpa using h
  · rcases List.mem_append.mp h with h1 | h1
    · rcases List.mem_append.mp h1 with h2 | h2
      · right
        left
        by_cases hn : q.num < 0
        · rw [if_pos hn] at h2
          simpa using h2
        · rw [if_neg hn] at h2
          exact absurd h2 (List.not_mem_nil c)
      · right
        right
        right
        exact printNat_chars h2
    · by_cases he : e = 0
      · rw [if_pos he] at h1
        exact absurd h1 (List.not_mem_nil c)
      · rw [if_neg he] at h1
        rcases List.mem_cons.mp h1 with h2 | h2
        · right
          right
          left
          exact h2
        · right
          right
          right
          exact printNatPad_chars h2

/-- printDec holds no pipe, no newline, and no space. -/
theorem printDec_not_special (q : ℚ) :
    '|' ∉ printDec q ∧ newlineChar ∉ printDec q ∧ ' ' ∉ printDec q := by
  refine ⟨?_, ?_, ?_⟩ <;> intro hmem
  · rcases printDec_chars hmem with h | h | h | ⟨d, hd, h⟩
    · exact absurd h (by decide)
    · exact absurd h (by decide)
    · exact absurd h (by decide)
    · exact (digitChar_not_special hd).1 h.symm
  · rcases printDec_chars hmem with h | h | h | ⟨d, hd, h⟩
    · exact absurd h (by decide)
    · exact absurd h (by decide)
    · exact absurd h (by decide)
    · exact (digitChar_not_special hd).2.1 h.symm
  · rcases printDec_chars hmem with h | h | h | ⟨d, hd, h⟩
    · exact absurd h (by decide)
    · exact absurd h (by decide)
    · exact absurd h (by decide)
    · exact (digitChar_not_special hd).2.2.1 h.symm

/-- printDec carries no leading or trailing space. -/
theorem printDec_trimmed (q : ℚ) :
    (printDec q).head? ≠ some ' ' ∧ (printDec q).getLast? ≠ some ' ' := by
  have hsp := (printDec_not_special q).2.2
  constructor
  · intro hEq
    exact hsp (List.mem_of_mem_head? (Option.mem_def.mpr hEq))
  · intro hEq
    have hrev : (printDec q).reverse.head? = some ' ' := by
      rw [List.head?_reverse]
      exact hEq
    have hmem : ' ' ∈ (printDec q).reverse :=
      List.mem_of_mem_head? (Option.mem_def.mpr hrev)
    exact hsp (List.mem_reverse.mp hmem)

/-- A well-formed text cell is pipe-free, newline-free, and trim-stable. -/
theorem encTextCell_props {v : Option (List Char)} (h : goodTextOpt v) :
    '|' ∉ encTextCell v ∧ newlineChar ∉ encTextCell v ∧
      (encTextCell v).head? ≠ some ' ' ∧ (encTextCell v).getLast? ≠ some ' ' := by
  cases v with
  | none =>
    refine ⟨by simp [encTextCell], by simp [encTextCell],
      by simp [encTextCell], by simp [encTextCell]⟩
  | some s =>
    obtain ⟨_, h1, h2, h3, h4, _⟩ := h
    exact ⟨h1, h2, h3, h4⟩

/-- A numeric cell is pipe-free, newline-free, and trim-stable. -/
theorem encNumCell_props (v : Option ℚ) :
    '|' ∉ encNumCell v ∧ newlineChar ∉ encNumCell v ∧
      (encNumCell v).head? ≠ some ' ' ∧ (encNumCell v).getLast? ≠ some ' ' := by
  cases v with
  | none =>
    refine ⟨by simp [encNumCell], by simp [encNumCell],
      by simp [encNumCell], by simp [encNumCell]⟩
  | some q =>
    obtain ⟨hp, hn, hs⟩ := printDec_not_special q
    obtain ⟨ht1, ht2⟩ := printDec_trimmed q
    exact ⟨hp, hn, ht1, ht2⟩

/-- Every cell of a well-formed record is pipe-free, newline-free, and
trim-stable. -/
theorem encodeRecordCells_props {r : ArticleRecord} (h : goodRecord r) :
    ∀ cel ∈ encodeRecordCells r, '|' ∉ cel ∧ newlineChar ∉ cel ∧
      cel.head? ≠ some ' ' ∧ cel.getLast? ≠ some ' ' := by
  obtain ⟨h1, h2, h3, h4, h5, h6, h7, h8, h9, h10, _⟩ := h
  intro cel hcel
  simp only [encodeRecordCells, List.mem_cons, List.not_mem_nil, or_false]
    at hcel
  rcases hcel with rfl | rfl | rfl | rfl | rfl | rfl | rfl | rfl | rfl | rfl
  · exact encTextCell_props h1
  · exact encTextCell_props h2
  · exact encNumCell_props _
  · exact encNumCell_props _
  · exact encNumCell_props _
  · exact encTextCell_props h6
  · exact encNumCell_props _
  · exact encNumCell_props _
  · exact encTextCell_props h9
  · exact encTextCell_props h10

/-- Text-cell decode inverts text-cell encode on well-formed values. -/
theorem coerceText_enc {v : Option (List Char)} (h : goodTextOpt v) :
    coerceText (Cell.cstr (encTextCell v)) = v := by
  cases v with
  | none => rfl
  | some s =>
    obtain ⟨hne, _⟩ := h
    cases s with
    | nil => exact absurd rfl hne
    | cons x xs => rfl

/-- Numeric-cell decode inverts numeric-cell encode on representable
values. -/
theorem coerceNum_enc {v : Option ℚ} (h : goodNumOpt v) :
    coerceNum (Cell.cstr (encNumCell v)) = v := by
  cases v with
  | none => decide
  | some q => exact parseDec_printDec h

/-- Tuple decode inverts cell encode on a well-formed record. -/
theorem decodeTuple_encodeRecordCells {r : ArticleRecord} (h : goodRecord r) :
    decodeTuple ((encodeRecordCells r).map Cell.cstr) = r := by
  obtain ⟨h1, h2, h3, h4, h5, h6, h7, h8, h9, h10, _⟩ := h
  rw [show decodeTuple ((encodeRecordCells r).map Cell.cstr) =
    ⟨coerceText (Cell.cstr (encTextCell r.reference)),
     coerceText (Cell.cstr (encTextCell r.designation)),
     coerceNum (Cell.cstr (encNumCell r.prixUnitaire)),
     coerceNum (Cell.cstr (encNumCell r.packaging)),
     coerceNum (Cell.cstr (encNumCell r.quantite)),
     coerceText (Cell.cstr (encTextCell r.unite)),
     coerceNum (Cell.cstr (encNumCell r.poidsVolume)),
     coerceNum (Cell.cstr (encNumCell r.total)),
     coerceText (Cell.cstr (encTextCell r.marque)),
     coerceText (Cell.cstr (encTextCell r.categorie))⟩ from rfl]
  rw [coerceText_enc h1, coerceText_enc h2, coerceNum_enc h3, coerceNum_enc h4,
    coerceNum_enc h5, coerceText_enc h6, coerceNum_enc h7, coerceNum_enc h8,
    coerceText_enc h9, coerceText_enc h10]

/-- The encoded cells of a well-formed record never look like a separator
row. -/
theorem isSepRow_encodeRecordCells {r : ArticleRecord} (h : goodRecord r) :
    isSepRow (encodeRecordCells r) = false := by
  have h1 : goodTextOpt r.reference := h.1
  cases href : r.reference with
  | none =>
    simp [isSepRow, encodeRecordCells, href, encTextCell]
  | some s =>
    rw [href] at h1
    obtain ⟨hne, _, _, _, _, c, hc, hcd, hcc⟩ := h1
    have hall : s.all (fun ch => ch == '-' || ch == ':') = false := by
      cases hb : s.all (fun ch => ch == '-' || ch == ':') with
      | false => rfl
      | true =>
        have hmm := List.all_eq_true.mp hb c hc
        simp only [Bool.or_eq_true, beq_iff_eq] at hmm
        rcases hmm with h | h
        · exact absurd h hcd
        · exact absurd h hcc
    simp [isSepRow, encodeRecordCells, href, encTextCell, hall]

/-- The separator row decodes to a separator. -/
theorem isSepRow_rowCells_sepRow : isSepRow (rowCells sepRow) = true := by decide

/-- The header row holds no newline. -/
theorem newline_not_mem_headerRow : newlineChar ∉ headerRow := by decide

/-- The separator row holds no newline. -/
theorem newline_not_mem_sepRow : newlineChar ∉ sepRow := by decide

set_option maxRecDepth 10000 in
/-- Claim C7 (counterexample): a record carrying the empty string in a text
field encodes to an empty cell, which decodes back to null, so the round trip
as claimed for every list of records fails. -/
theorem markdown_roundtrip_counterexample :
    normalizeArticles (RawArticles.markdown (encodeMarkdownTable
      [{ designation := some [] }])) ≠ [{ designation := some [] }] := by
  decide

/-- Claim C7 (amended): for every nonempty list of well-formed records —
text fields absent or nonempty, pipe- and newline-free, with no leading or
trailing space and not made of dashes and colons only; numeric fields absent
or exactly decimal-representable; every record with some populated field —
decoding the encoded markdown table through the Article Normalizer
reproduces the records with equal values in equal order. -/
theorem markdown_table_roundtrip (rs : List ArticleRecord) (hne : rs ≠ [])
    (hgood : ∀ r ∈ rs, goodRecord r) :
    normalizeArticles (RawArticles.markdown (encodeMarkdownTable rs)) = rs := by
  have hcells : ∀ r ∈ rs, ∀ cel ∈ encodeRecordCells r,
      '|' ∉ cel ∧ newlineChar ∉ cel ∧ cel.head? ≠ some ' ' ∧
        cel.getLast? ≠ some ' ' :=
    fun r hr => encodeRecordCells_props (hgood r hr)
  have hrowdec : ∀ r ∈ rs,
      rowCells (encodeRow (encodeRecordCells r)) = encodeRecordCells r :=
    fun r hr => rowCells_encodeRow_id
      (fun cel hc => (hcells r hr cel hc).1)
      (fun cel hc => ⟨(hcells r hr cel hc).2.2.1, (hcells r hr cel hc).2.2.2⟩)
  have hnl : ∀ row ∈ headerRow :: sepRow ::
      rs.map (fun r => encodeRow (encodeRecordCells r)), newlineChar ∉ row := by
    intro row hrow
    rcases List.mem_cons.mp hrow with rfl | hrow2
    · exact newline_not_mem_headerRow
    · rcases List.mem_cons.mp hrow2 with rfl | hrow3
      · exact newline_not_mem_sepRow
      · obtain ⟨r, hr, hEq⟩ := List.mem_map.mp hrow3
        rw [← hEq]
        exact newline_not_mem_encodeRow (fun cel hc => (hcells r hr cel hc).2.1)
  have hsplit : splitOnChar newlineChar (encodeMarkdownTable rs) =
      headerRow :: sepRow ::
        rs.map (fun r => encodeRow (encodeRecordCells r)) := by
    rw [encodeMarkdownTable]
    exact splitOnChar_joinLines (by simp) hnl
  have hdm : decodeMarkdown (encodeMarkdownTable rs) = rs := by
    simp only [decodeMarkdown, hsplit, List.map_cons]
    have hfil : ((rowCells sepRow ::
        (rs.map (fun r => encodeRow (encodeRecordCells r))).map rowCells).filter
          (fun cells => !isSepRow cells)) =
        (rs.map (fun r => encodeRow (encodeRecordCells r))).map rowCells := by
      rw [List.filter_cons_of_neg (by simp [isSepRow_rowCells_sepRow])]
      refine List.filter_eq_self.mpr ?_
      intro cells hcells2
      obtain ⟨row, hrow, hEq⟩ := List.mem_map.mp hcells2
      obtain ⟨r, hr, hEq2⟩ := List.mem_map.mp hrow
      rw [← hEq, ← hEq2, hrowdec r hr]
      simp [isSepRow_encodeRecordCells (hgood r hr)]
    rw [hfil, List.map_map, List.map_map]
    have hpt : ∀ r ∈ rs,
        (((fun cells => decodeTuple (cells.map Cell.cstr)) ∘ rowCells) ∘
          fun r => encodeRow (encodeRecordCells r)) r = id r := by
      intro r hr
      show decodeTuple ((rowCells (encodeRow (encodeRecordCells r))).map
        Cell.cstr) = r
      rw [hrowdec r hr]
      exact decodeTuple_encodeRecordCells (hgood r hr)
    rw [List.map_congr_left hpt, List.map_id]
  have hdr : decodeRows (RawArticles.markdown (encodeMarkdownTable rs)) = rs :=
    hdm
  rw [normalizeArticles, hdr]
  have hfil2 : rs.filter (fun r => decide (r ≠ emptyRecord)) = rs :=
    List.filter_eq_self.mpr (fun r hr => by
      simp only [decide_eq_true_eq]
      exact (hgood r hr).2.2.2.2.2.2.2.2.2.2)
  rw [hfil2, if_neg (by simp [List.isEmpty_iff, hne])]

/-- Concrete instance of amended claim C7: a scenario-C-style record with a
reference, a designation, and a unit price of 10.5 survives the markdown
round trip. -/
theorem markdown_table_roundtrip_witness :
    normalizeArticles (RawArticles.markdown (encodeMarkdownTable
      [{ reference := some "R1".toList, designation := some "Bread".toList,
         prixUnitaire := some (mkRat 21 2) }])) =
      [{ reference := some "R1".toList, designation := some "Bread".toList,
         prixUnitaire := some (mkRat 21 2) }] :=
  markdown_table_roundtrip _ (by decide) (by
    intro r hr
    rw [List.mem_singleton.mp hr]
    decide)

end InvoiceAnalyst
